import Mathlib

/-!
Verification of the seat-allocation and scenario-simulation core of the
`analisis-electoral-2025` repository (D'Hondt allocation, alliance merging,
vote-loss redistribution, indifference-loss binary search, independent-party
normalization).

Modelling conventions:
* Python `float` vote totals and quotients are modelled as exact rationals
  (`ℚ`).  Vote data are integers in the repository, and none of the
  properties verified here depends on floating-point rounding: every
  argument below uses only the ordering of the quotients, and rounding a
  monotone family of exact quotients is order-preserving.
* Python string comparison (used as the final tie-break of the D'Hondt sort
  key) is code-point lexicographic; it is modelled by the lexicographic
  order on `List Char` via `String.data`.
* Python `dict` values (`dict(Counter(...))`) are modelled as association
  lists whose keys are in first-occurrence order, which is exactly the
  insertion order of the Python dict.
* Python exceptions (`ValueError`) are modelled with `Except String`.
-/

namespace AnalisisElectoral

section Main

attribute [local semireducible] Rat.mul Rat.inv Rat.add Rat.sub

/-- A contestant as consumed (duck-typed) by `dhondt_allocation`: the function
only reads the fields `.code` and `.votes` of whatever records it is handed
(`PactResult`, `_SubpactResult` with integer votes, or `_PactVotes` with float
votes), so the embedding uses a single record with rational votes. -/
structure Contender where
  code : String
  votes : ℚ
deriving DecidableEq, Repr

/-- Sort keys for the quotient pool: Python sorts ascending by
`(-quotient, -raw_votes, pact_code)`, i.e. lexicographically. -/
abbrev DKey := ℚ ×ₗ ℚ ×ₗ List Char

/-- `DhondtSeat` from `dhondt.py`: one quotient entry of the pool. -/
structure DhondtSeat where
  pact_code : String
  quotient : ℚ
  divisor : ℕ
  raw_votes : ℚ
deriving DecidableEq, Repr

/-- The Python sort key `(-seat.quotient, -seat.raw_votes, seat.pact_code)`. -/
def seatKey (s : DhondtSeat) : DKey :=
  toLex (-s.quotient, toLex (-s.raw_votes, s.pact_code.data))

/-- The quotient pool of `dhondt_allocation`: for every pact with positive
votes and every divisor `1..seats`, one `DhondtSeat` entry
(`quotient = votes / divisor`). -/
def dhondtQuotients (pacts : List Contender) (seats : ℕ) : List DhondtSeat :=
  pacts.flatMap fun p =>
    if p.votes ≤ 0 then []
    else (List.range seats).map fun (d : ℕ) =>
      { pact_code := p.code
        quotient := p.votes / ((d : ℚ) + 1)
        divisor := d + 1
        raw_votes := p.votes }

/-- Codes of the winning quotients: the pool is sorted ascending by
`seatKey` (a stable sort, like Python's) and the first `seats` entries win. -/
def winnerCodes (pacts : List Contender) (seats : ℕ) : List String :=
  (((dhondtQuotients pacts seats).insertionSort fun a b => seatKey a ≤ seatKey b).take
      seats).map fun s => s.pact_code

/-- First-occurrence deduplication; models the key order of a Python
`dict` built by insertion (`dict(Counter(codes))`). -/
def firstDedup (l : List String) : List String := l.reverse.dedup.reverse

/-- `dhondt_allocation` from `dhondt.py`: count, per pact code, how many of
the top `seats` quotients it contributed; the result is the
`dict(Counter(...))`, with keys in first-occurrence order. -/
def dhondt_allocation (pacts : List Contender) (seats : ℕ) : List (String × ℕ) :=
  (firstDedup (winnerCodes pacts seats)).map fun c => (c, (winnerCodes pacts seats).count c)

/-- Python `allocation.get(code, 0)`. -/
def allocGet (alloc : List (String × ℕ)) (code : String) : ℕ :=
  (alloc.lookup code).getD 0

/-- Sum of the seat counts of an allocation (sum of the dict's values). -/
def sumValues (alloc : List (String × ℕ)) : ℕ := (alloc.map fun pr => pr.2).sum

/-- Ascending stable sort by a linear order (models Python `list.sort(key=...)`,
applied to the pulled-back order on sort keys). -/
def sortLE {α : Type} [LinearOrder α] (l : List α) : List α := l.insertionSort (· ≤ ·)

/-- The code (third) component of a sort key. -/
def keyCode (k : DKey) : List Char := (ofLex (ofLex k).2).2

/-- The quotient pool mapped to its sort keys. -/
def kpool (l : List Contender) (S : ℕ) : List DKey := (dhondtQuotients l S).map seatKey

instance : IsTotal DhondtSeat fun a b => seatKey a ≤ seatKey b :=
  ⟨fun a b => le_total (seatKey a) (seatKey b)⟩

instance : IsTrans DhondtSeat fun a b => seatKey a ≤ seatKey b :=
  ⟨fun _ _ _ h₁ h₂ => le_trans h₁ h₂⟩

/-- The sort keys a single contestant contributes to the quotient pool. -/
def entryKeys (S : ℕ) (p : Contender) : List DKey :=
  if p.votes ≤ 0 then []
  else (List.range S).map fun (d : ℕ) =>
    toLex (-(p.votes / ((d : ℚ) + 1)), toLex (-p.votes, p.code.data))

/-- Pointwise comparison used for team monotonicity: codes and positions
fixed; team-`c` members have at most the votes they had in `l` (or are
non-positive on both sides), every other contestant at least. -/
def TeamRel (c : String) (p q : Contender) : Prop :=
  p.code = q.code ∧
    (p.code = c → q.votes ≤ p.votes ∨ (q.votes ≤ 0 ∧ p.votes ≤ 0)) ∧
    (¬ p.code = c → p.votes ≤ q.votes ∨ (p.votes ≤ 0 ∧ q.votes ≤ 0))

/-- The seat count of team `c`, read off the sorted key pool. -/
def teamCount (c : String) (S : ℕ) (M : List DKey) : ℕ :=
  ((sortLE M).take S).countP fun k => decide (keyCode k = c.data)

/-! ### `_pacts_with_vote_loss` (simulation.py) -/

/-- One step of the scan in `_pacts_with_vote_loss`: remember the votes of the
(last) pact matching the merged label, collect the others in order, and
accumulate the other pacts' combined votes. -/
def voteLossStep (merged_label : String) (st : Option ℚ × List Contender × ℚ)
    (p : Contender) : Option ℚ × List Contender × ℚ :=
  if p.code = merged_label then (some p.votes, st.2.1, st.2.2)
  else (st.1, st.2.1 ++ [p], st.2.2 + p.votes)

/-- `_pacts_with_vote_loss` from `simulation.py`: remove `loss_fraction` of the
merged pact's votes and hand the removed votes to every other pact in
proportion to its share of the combined other votes; when nothing is lost or
the other pacts have no votes the others are passed through unchanged.  The
two `ValueError`s of the source (fraction out of `[0,1]`, merged label
absent) are modelled with `Except.error`. -/
def pactsWithVoteLoss (merged_pacts : List Contender) (merged_label : String)
    (loss_fraction : ℚ) : Except String (List Contender) :=
  if ¬ (0 ≤ loss_fraction ∧ loss_fraction ≤ 1) then
    .error "El porcentaje de pérdida debe estar entre 0 y 100%"
  else
    match merged_pacts.foldl (voteLossStep merged_label) (none, [], 0) with
    | (none, _, _) => .error "No se encontró el pacto unificado dentro del escenario"
    | (some merged_votes, others, other_votes_total) =>
      if merged_votes * loss_fraction ≤ 0 ∨ other_votes_total ≤ 0 then
        .ok (⟨merged_label, merged_votes - merged_votes * loss_fraction⟩ :: others)
      else
        .ok (⟨merged_label, merged_votes - merged_votes * loss_fraction⟩ ::
          others.map fun p =>
            ⟨p.code, p.votes + merged_votes * loss_fraction * (p.votes / other_votes_total)⟩)

deriving instance DecidableEq for Except

/-- Closed form of the scenario list `_pacts_with_vote_loss` builds when
exactly one pact carries the merged label (see `pactsWithVoteLoss_unique`). -/
def lossScenario (pre post : List Contender) (label : String) (m f : ℚ) : List Contender :=
  if m * f ≤ 0 ∨ ((pre ++ post).map fun p => p.votes).sum ≤ 0 then
    ⟨label, m - m * f⟩ :: (pre ++ post)
  else
    ⟨label, m - m * f⟩ :: (pre ++ post).map fun p =>
      ⟨p.code, p.votes + m * f * (p.votes / ((pre ++ post).map fun p => p.votes).sum)⟩

/-- Merged-alliance seats after applying a loss fraction `f`. -/
def seatsAtLoss (pre post : List Contender) (label : String) (m : ℚ) (seats : ℕ)
    (f : ℚ) : ℕ :=
  allocGet (dhondt_allocation (lossScenario pre post label m f) seats) label

/-- The bisection loop of `_indifference_loss_percentage` (`for _ in range(60)`
with the `break` once the interval is within the tolerance `1e-4`; the
tolerance is modelled as `1/10000`, which the dyadic interval widths reached
by the loop never separate from the float literal `1e-4`). -/
def indiffSearch (merged_pacts : List Contender) (merged_label : String) (seats : ℕ)
    (baseline_seats : ℕ) : ℕ → ℚ → ℚ → Except String ℚ
  | 0, _, high => .ok high
  | fuel + 1, low, high =>
    let mid := (low + high) / 2
    match pactsWithVoteLoss merged_pacts merged_label mid with
    | .error e => .error e
    | .ok scenario =>
      let seats_mid := allocGet (dhondt_allocation scenario seats) merged_label
      let st := if baseline_seats < seats_mid then (mid, high) else (low, mid)
      if st.2 - st.1 ≤ 1 / 10000 then .ok st.2
      else indiffSearch merged_pacts merged_label seats baseline_seats fuel st.1 st.2

/-- `_indifference_loss_percentage` from `simulation.py`. -/
def indifferenceLossPercentage (merged_pacts : List Contender) (merged_label : String)
    (seats baseline_seats current_merged_seats : ℕ) : Except String ℚ :=
  if current_merged_seats ≤ baseline_seats then .ok 0
  else indiffSearch merged_pacts merged_label seats baseline_seats 60 0 1

/-- `_NationalScenario` from `simulation.py`. -/
structure NationalScenario where
  merged_pacts : List Contender
  merged_label : String
  seats : ℕ
deriving DecidableEq

/-- The per-trial total of `_national_indifference_loss`: merged-alliance
seats summed over all districts at a common loss fraction (an exception in
any district propagates). -/
def nationalSeatsAt (circs : List NationalScenario) (f : ℚ) : Except String ℕ :=
  circs.foldl
    (fun acc c =>
      match acc with
      | .error e => .error e
      | .ok t =>
        match pactsWithVoteLoss c.merged_pacts c.merged_label f with
        | .error e => .error e
        | .ok scenario => .ok (t + allocGet (dhondt_allocation scenario c.seats) c.merged_label))
    (.ok 0)

/-- The bisection loop of `_national_indifference_loss`. -/
def nationalSearch (circs : List NationalScenario) (baseline_total : ℕ) :
    ℕ → ℚ → ℚ → Except String ℚ
  | 0, _, high => .ok high
  | fuel + 1, low, high =>
    let mid := (low + high) / 2
    match nationalSeatsAt circs mid with
    | .error e => .error e
    | .ok total =>
      let st := if baseline_total < total then (mid, high) else (low, mid)
      if st.2 - st.1 ≤ 1 / 10000 then .ok st.2
      else nationalSearch circs baseline_total fuel st.1 st.2

/-- `_national_indifference_loss` from `simulation.py`. -/
def nationalIndifferenceLoss (circs : List NationalScenario)
    (baseline_total current_total : ℕ) : Except String ℚ :=
  if circs = [] ∨ current_total ≤ baseline_total then .ok 0
  else nationalSearch circs baseline_total 60 0 1

/-! ### Data records of `data_loader.py` and `_merge_pacts` / candidate
sub-pact grouping of `simulation.py` -/

/-- `CandidateResult` from `data_loader.py`. -/
structure CandidateResult where
  number : ℤ
  name : String
  party : Option String
  votes : ℤ
  percentage : Option ℚ
  elected : Bool
  pact_code : Option String
deriving DecidableEq, Repr

/-- `PactResult` from `data_loader.py`. -/
structure PactResult where
  code : String
  name : String
  label : String
  votes : ℤ
  percentage : Option ℚ
  candidate_slots : Option ℤ
  seats_won : Option ℤ
  candidates : List CandidateResult
deriving DecidableEq, Repr

/-- `CircunscripcionResult` from `data_loader.py`. -/
structure CircunscripcionResult where
  circunscripcion_id : String
  circunscripcion_label : String
  seats : ℕ
  pacts : List PactResult
deriving DecidableEq, Repr

/-- Python `str.upper()` (the pact codes and party labels compared in the
source are ASCII, where `Char.toUpper` agrees with Python's case mapping). -/
def pyUpper (s : String) : String := ⟨s.data.map Char.toUpper⟩

/-- Candidate ordering key used when building the merged pact:
`key=lambda c: (-c.votes, c.number)`. -/
def candKey (c : CandidateResult) : ℤ ×ₗ ℤ := toLex (-c.votes, c.number)

instance : IsTotal CandidateResult fun a b => candKey a ≤ candKey b :=
  ⟨fun a b => le_total (candKey a) (candKey b)⟩

instance : IsTrans CandidateResult fun a b => candKey a ≤ candKey b :=
  ⟨fun _ _ _ h₁ h₂ => le_trans h₁ h₂⟩

/-- One step of the loop in `_merge_pacts`: a pact whose upper-cased code is
among the requested codes feeds the merged accumulator (votes, candidates,
names, codes, in order); any other pact passes through to the result list. -/
def mergeStep (codes : List String)
    (st : ℤ × List CandidateResult × List String × List String × List PactResult)
    (p : PactResult) : ℤ × List CandidateResult × List String × List String × List PactResult :=
  if pyUpper p.code ∈ codes then
    (st.1 + p.votes, st.2.1 ++ p.candidates, st.2.2.1 ++ [p.name], st.2.2.2.1 ++ [p.code],
      st.2.2.2.2)
  else
    (st.1, st.2.1, st.2.2.1, st.2.2.2.1, st.2.2.2.2 ++ [p])

/-- `_merge_pacts` from `simulation.py`: replace all pacts whose code matches
one of the requested (upper-cased) codes by one synthetic pact (votes summed,
candidates concatenated then re-sorted by votes desc / ballot number asc,
code and name joined with " + "), appended after the untouched pacts; raises
(`Except.error`) when no code matched. -/
def mergePacts (pacts : List PactResult) (codes : List String) :
    Except String (List PactResult × String × List String) :=
  match pacts.foldl (mergeStep codes) (0, [], [], [], []) with
  | (merged_votes, merged_candidates, merged_names, merged_codes, result) =>
    if merged_codes = [] then
      .error ("Ninguno de los pactos solicitados (" ++
        String.intercalate ", " (sortLE codes) ++ ") está presente en la circunscripción")
    else
      let merged_label := String.intercalate " + " merged_codes
      let merged_name := String.intercalate " + " merged_names
      .ok (result ++
          [{ code := merged_label, name := merged_name, label := merged_label,
             votes := merged_votes, percentage := none, candidate_slots := none,
             seats_won := none,
             candidates := merged_candidates.insertionSort
               fun a b => candKey a ≤ candKey b }],
        merged_label, merged_codes)

/-- The per-district scenario loop of `main` (printing and aggregation
stripped to the control flow relevant for claim C7): a district whose
`_merge_pacts` raises is skipped — `except ValueError: ... continue` — and
processing resumes with the remaining districts. -/
def processedScenarios (codes : List String) :
    List CircunscripcionResult → List (String × List PactResult × String × List String)
  | [] => []
  | c :: rest =>
    match mergePacts c.pacts codes with
    | .error _ => processedScenarios codes rest
    | .ok r => (c.circunscripcion_id, r) :: processedScenarios codes rest

/-- Python's `\s` (regex) and `str.strip()` whitespace, restricted to ASCII
(the party labels in the source data are ASCII). -/
def isPySpace (c : Char) : Bool :=
  c = ' ' ∨ c = '\t' ∨ c = '\n' ∨ c = '\r' ∨ c = '\x0b' ∨ c = '\x0c'

/-- Python `str.strip()` on a character list. -/
def pyStrip (l : List Char) : List Char :=
  ((l.dropWhile isPySpace).reverse.dropWhile isPySpace).reverse

/-- Python `str.strip()`. -/
def pyStripStr (s : String) : String := ⟨pyStrip s.data⟩

/-- The regex match `_IND_PARTY_PATTERN.match(label)` for
`^IND\s*-\s*(.+)$` with `re.IGNORECASE`, composed with `.strip()` of
`match.group(1)`:
* `IND` is matched case-insensitively at the start;
* `\s*` before `-` is a maximal whitespace munch (no backtracking can help
  since `-` is not whitespace);
* `(.+)$` takes everything up to the end, minus at most one string-final
  newline (`$` also matches just before it), and fails if a newline would be
  left inside the group (`.` never matches a newline);
* a match whose group strips to nothing is returned as `none`, because the
  source treats it identically to a failed match (both fall through to the
  `label.upper() == "IND"` check). -/
def indMatchStripped (chars : List Char) : Option (List Char) :=
  match chars with
  | c₁ :: c₂ :: c₃ :: rest =>
    if c₁.toLower = 'i' ∧ c₂.toLower = 'n' ∧ c₃.toLower = 'd' then
      match rest.dropWhile isPySpace with
      | '-' :: t =>
        let u := if t.getLast? = some '\n' then t.dropLast else t
        let w := u.dropWhile isPySpace
        if w ≠ [] ∧ '\n' ∉ w then some (pyStrip w) else none
      | _ => none
    else none
  | _ => none

/-- `_normalize_independent_party_label` from `simulation.py`. -/
def normalizeIndependentPartyLabel (label : String) : String :=
  if label = "" then label
  else
    match indMatchStripped label.data with
    | some rem =>
      if (⟨rem⟩ : String) ≠ "" then ⟨rem⟩
      else if pyUpper label = "IND" then "IND" else label
    | none => if pyUpper label = "IND" then "IND" else label

/-- The fallback tail of `_candidate_subpact_code` (no usable party label). -/
def candidateSubpactFallback (cand : CandidateResult) : String :=
  match cand.pact_code with
  | some pc => if pc ≠ "" then pc ++ " (sin partido)" else "(sin partido)"
  | none => "(sin partido)"

/-- `_candidate_subpact_code` from `simulation.py` (Python truthiness of the
optional strings is modelled by the `≠ ""` tests). -/
def candidateSubpactCode (cand : CandidateResult) : String :=
  match cand.party with
  | some party =>
    if party ≠ "" then
      if pyStripStr party ≠ "" then
        if normalizeIndependentPartyLabel (pyStripStr party) ≠ "" then
          normalizeIndependentPartyLabel (pyStripStr party)
        else candidateSubpactFallback cand
      else candidateSubpactFallback cand
    else candidateSubpactFallback cand
  | none => candidateSubpactFallback cand

/-- `_group_candidates_by_subpact` from `simulation.py`: the
`defaultdict(list)` loop produces keys in first-appearance order, each with
the sub-list of candidates mapping to it, in input order. -/
def groupCandidatesBySubpact (cands : List CandidateResult) :
    List (String × List CandidateResult) :=
  (firstDedup (cands.map candidateSubpactCode)).map fun k =>
    (k, cands.filter fun c => candidateSubpactCode c = k)

section SelectionCount

variable {α : Type} [LinearOrder α]

theorem sortLE_sorted (l : List α) : (sortLE l).Sorted (· ≤ ·) :=
  List.sorted_insertionSort (· ≤ ·) l

theorem sortLE_perm (l : List α) : (sortLE l).Perm l :=
  List.perm_insertionSort (· ≤ ·) l

theorem sortLE_congr_perm {l₁ l₂ : List α} (h : l₁.Perm l₂) : sortLE l₁ = sortLE l₂ :=
  List.eq_of_perm_of_sorted ((sortLE_perm l₁).trans (h.trans (sortLE_perm l₂).symm))
    (sortLE_sorted l₁) (sortLE_sorted l₂)

/-- In a sorted list, the copies of a value `w` occupy a contiguous block, so the
number of copies among the first `S` entries has this closed form. -/
theorem count_take_of_sorted (w : α) :
    ∀ L : List α, L.Sorted (· ≤ ·) → ∀ S : ℕ,
      (L.take S).count w =
        min S (L.countP fun x => x ≤ w) - min S (L.countP fun x => x < w) := by
  intro L
  induction L with
  | nil => intro _ S; simp
  | cons x T ih =>
    intro hL S
    have hx : ∀ t ∈ T, x ≤ t := (List.sorted_cons.mp hL).1
    have hT : T.Sorted (· ≤ ·) := (List.sorted_cons.mp hL).2
    cases S with
    | zero => simp
    | succ S =>
      rw [List.take_succ_cons, List.count_cons, List.countP_cons, List.countP_cons, ih hT S]
      rcases lt_trichotomy x w with hlt | heq | hgt
      · have e2 : (x == w) = false := by simp [ne_of_lt hlt]
        simp only [e2, decide_eq_true_eq]
        simp [le_of_lt hlt, hlt]
        omega
      · subst heq
        have cLT : (T.countP fun t => decide (t < x)) = 0 :=
          List.countP_eq_zero.mpr fun t ht => by simp [not_lt.mpr (hx t ht)]
        simp [cLT, lt_irrefl]
        omega
      · have cLE : (T.countP fun t => decide (t ≤ w)) = 0 :=
          List.countP_eq_zero.mpr fun t ht => by
            simp [not_le.mpr (lt_of_lt_of_le hgt (hx t ht))]
        have cLT : (T.countP fun t => decide (t < w)) = 0 :=
          List.countP_eq_zero.mpr fun t ht => by
            simp [not_lt.mpr (le_of_lt (lt_of_lt_of_le hgt (hx t ht)))]
        have e2 : (x == w) = false := by simp [(ne_of_lt hgt).symm]
        simp [e2, cLE, cLT, not_le.mpr hgt, not_lt.mpr (le_of_lt hgt)]

/-- A `countP` is the sum, over the distinct matching values, of their counts. -/
theorem countP_eq_sum_count (p : α → Bool) (l : List α) :
    l.countP p = ∑ w ∈ (l.filter p).toFinset, l.count w := by
  rw [List.countP_eq_length_filter]
  have h3 : ((l.filter p : List α) : Multiset α).card = (l.filter p).length := by simp
  rw [← h3, ← Multiset.toFinset_sum_count_eq]
  refine Finset.sum_congr rfl fun w hw => ?_
  have hp : p w = true := List.of_mem_filter (List.mem_toFinset.mp hw)
  simpa using List.count_filter hp

theorem count_take_sortLE (M : List α) (w : α) (S : ℕ) :
    ((sortLE M).take S).count w =
      min S (M.countP fun x => x ≤ w) - min S (M.countP fun x => x < w) := by
  rw [count_take_of_sorted w (sortLE M) (sortLE_sorted M) S,
    (sortLE_perm M).countP_eq, (sortLE_perm M).countP_eq]

theorem countP_take_sortLE (p : α → Bool) (M : List α) (S : ℕ) :
    ((sortLE M).take S).countP p = ∑ w ∈ (M.filter p).toFinset, ((sortLE M).take S).count w := by
  rw [countP_eq_sum_count]
  refine Finset.sum_subset ?_ ?_
  · intro w hw
    rw [List.mem_toFinset] at hw ⊢
    have hmem : w ∈ (sortLE M).take S := List.mem_of_mem_filter hw
    have hp : p w = true := List.of_mem_filter hw
    exact List.mem_filter.mpr ⟨(sortLE_perm M).mem_iff.mp (List.mem_of_mem_take hmem), hp⟩
  · intro w hw hnot
    rw [List.mem_toFinset] at hw hnot
    have hp : p w = true := List.of_mem_filter hw
    refine List.count_eq_zero.mpr fun hmem => hnot ?_
    exact List.mem_filter.mpr ⟨hmem, hp⟩

/-- Master selection lemma.  The pool is split into a fixed part `F` (all
satisfying `p`) and a varying part (`V` resp. `V'`, none satisfying `p`).
If for every `p`-value `w` the part `V'` puts at least as many elements
strictly below `w` as `V` does, then sorting and taking the `S` best can only
select fewer `p`-elements with `V'` than with `V`. -/
theorem countP_take_sortLE_le (p : α → Bool) (F V V' : List α)
    (hF : ∀ x ∈ F, p x = true) (hV : ∀ x ∈ V, p x = false) (hV' : ∀ x ∈ V', p x = false)
    (hdom : ∀ w, p w = true →
      (V.countP fun x => x < w) ≤ (V'.countP fun x => x < w)) (S : ℕ) :
    ((sortLE (F ++ V')).take S).countP p ≤ ((sortLE (F ++ V)).take S).countP p := by
  have hfil : ∀ W : List α, (∀ x ∈ W, p x = false) → (F ++ W).filter p = F := by
    intro W hW
    rw [List.filter_append, List.filter_eq_self.mpr hF,
      List.filter_eq_nil_iff.mpr (by intro a ha; simp [hW a ha]), List.append_nil]
  rw [countP_take_sortLE, countP_take_sortLE, hfil V hV, hfil V' hV']
  refine Finset.sum_le_sum fun w hw => ?_
  have hpw : p w = true := hF w (List.mem_toFinset.mp hw)
  have hVle : ∀ W : List α, (∀ x ∈ W, p x = false) →
      (W.countP fun x => x ≤ w) = (W.countP fun x => x < w) := by
    intro W hW
    refine List.countP_congr fun x hx => ?_
    have hne : x ≠ w := fun hEq => by
      have hfalse := hW x hx
      rw [hEq, hpw] at hfalse
      exact absurd hfalse (by simp)
    simp only [decide_eq_true_eq]
    exact ⟨fun hle => lt_of_le_of_ne hle hne, le_of_lt⟩
  rw [count_take_sortLE, count_take_sortLE, List.countP_append, List.countP_append,
    List.countP_append, List.countP_append, hVle V hV, hVle V' hV']
  have hmono : (F.countP fun x => x < w) ≤ (F.countP fun x => x ≤ w) :=
    List.countP_mono_left fun x _ hx => by
      simp only [decide_eq_true_eq] at hx ⊢
      exact le_of_lt hx
  have hd := hdom w hpw
  omega

end SelectionCount

/-! ### Bridge between `dhondt_allocation` and the generic selection lemmas -/





theorem map_seatKey_sort (Q : List DhondtSeat) :
    (Q.insertionSort fun a b => seatKey a ≤ seatKey b).map seatKey = sortLE (Q.map seatKey) := by
  refine List.eq_of_perm_of_sorted ?_ ?_ (sortLE_sorted _)
  · exact ((List.perm_insertionSort _ Q).map seatKey).trans (sortLE_perm _).symm
  · exact List.Pairwise.map seatKey (fun a b h => h)
      (List.sorted_insertionSort (fun a b => seatKey a ≤ seatKey b) Q)

theorem winnerCodes_as_kpool (l : List Contender) (S : ℕ) :
    winnerCodes l S = ((sortLE (kpool l S)).take S).map fun k => String.mk (keyCode k) := by
  unfold winnerCodes kpool
  rw [← map_seatKey_sort, ← List.map_take, List.map_map]
  exact List.map_congr_left fun s _ => rfl

theorem mem_firstDedup (cs : List String) (c : String) : c ∈ firstDedup cs ↔ c ∈ cs := by
  simp [firstDedup]

theorem lookup_map_graph (c : String) (g : String → ℕ) :
    ∀ ds : List String,
      List.lookup c (ds.map fun d => (d, g d)) = if c ∈ ds then some (g c) else none := by
  intro ds
  induction ds with
  | nil => simp
  | cons d t ih =>
    simp only [List.map_cons, List.lookup]
    by_cases hcd : c = d
    · subst hcd
      simp
    · have hb : (c == d) = false := beq_eq_false_iff_ne.mpr hcd
      simp only [hb, ih]
      simp [List.mem_cons, hcd]

theorem allocGet_eq_count (l : List Contender) (S : ℕ) (c : String) :
    allocGet (dhondt_allocation l S) c = (winnerCodes l S).count c := by
  unfold allocGet dhondt_allocation
  rw [lookup_map_graph]
  by_cases hc : c ∈ firstDedup (winnerCodes l S)
  · rw [if_pos hc]; rfl
  · rw [if_neg hc]
    have : c ∉ winnerCodes l S := fun h => hc ((mem_firstDedup _ _).mpr h)
    simp [List.count_eq_zero.mpr this, Option.getD]

theorem count_winnerCodes (l : List Contender) (S : ℕ) (c : String) :
    (winnerCodes l S).count c =
      ((sortLE (kpool l S)).take S).countP fun k => decide (keyCode k = c.data) := by
  rw [winnerCodes_as_kpool]
  unfold List.count
  rw [List.countP_map]
  refine List.countP_congr fun k _ => ?_
  simp only [Function.comp_apply, beq_iff_eq, decide_eq_true_eq]
  constructor
  · intro h
    rw [← h]
  · intro h
    rw [show String.mk (keyCode k) = String.mk c.data from congrArg String.mk h]

theorem dhondt_allocation_perm {l₁ l₂ : List Contender} (h : l₁.Perm l₂) (S : ℕ) :
    dhondt_allocation l₁ S = dhondt_allocation l₂ S := by
  have hk : (kpool l₁ S).Perm (kpool l₂ S) := by
    unfold kpool dhondtQuotients
    exact (h.flatMap_right _).map seatKey
  have hw : winnerCodes l₁ S = winnerCodes l₂ S := by
    rw [winnerCodes_as_kpool, winnerCodes_as_kpool, sortLE_congr_perm hk]
  unfold dhondt_allocation
  rw [hw]

theorem length_dhondtQuotients (l : List Contender) (S : ℕ) :
    (dhondtQuotients l S).length = S * l.countP fun p => decide (0 < p.votes) := by
  induction l with
  | nil => simp [dhondtQuotients]
  | cons p t ih =>
    unfold dhondtQuotients at ih ⊢
    rw [List.flatMap_cons, List.length_append, ih, List.countP_cons]
    by_cases hp : p.votes ≤ 0
    · simp [hp, not_lt.mpr hp]
    · simp only [if_neg hp, List.length_map, List.length_range]
      have : decide (0 < p.votes) = true := by simp [lt_of_not_le hp]
      rw [this]
      simp only [if_true]
      ring

theorem sum_count_firstDedup (cs : List String) :
    ((firstDedup cs).map fun c => cs.count c).sum = cs.length := by
  unfold firstDedup
  rw [List.map_reverse, List.sum_reverse]
  rw [List.map_congr_left fun c _ => (List.count_reverse c cs).symm]
  rw [List.sum_map_count_dedup_eq_length, List.length_reverse]

theorem sumValues_dhondt (l : List Contender) (S : ℕ) :
    sumValues (dhondt_allocation l S) = (winnerCodes l S).length := by
  unfold sumValues dhondt_allocation
  rw [List.map_map]
  exact sum_count_firstDedup _

theorem length_winnerCodes (l : List Contender) (S : ℕ) :
    (winnerCodes l S).length = min S (dhondtQuotients l S).length := by
  unfold winnerCodes
  rw [List.length_map, List.length_take, (List.perm_insertionSort _ _).length_eq]

/-- Claim C1 (amended): the allocated seats sum to
`min (seats, seats * number of positive-vote contestants)`, i.e. to `seats`
as soon as one contestant has positive votes, and to `0` otherwise.  (Each
positive-vote contestant contributes `seats` quotients, so the pool is never
smaller than `seats` unless it is empty.) -/
theorem dhondt_sum_allocated (pacts : List Contender) (seats : ℕ) :
    sumValues (dhondt_allocation pacts seats) =
      min seats (seats * pacts.countP fun p => decide (0 < p.votes)) := by
  rw [sumValues_dhondt, length_winnerCodes, length_dhondtQuotients]

/-- Claim C1, as stated, is false: a single contestant with positive votes and
`seats = 2` receives both seats, while `min (seats, positive contestants) = 1`. -/
theorem dhondt_sum_allocated_counterexample :
    ¬ sumValues (dhondt_allocation [⟨"A", 10⟩] 2) =
        min 2 (([⟨"A", (10 : ℚ)⟩] : List Contender).countP fun p => decide (0 < p.votes)) := by
  decide

/-- Claim C9: the allocation is a pure function of the multiset of
`(identifier, votes)` pairs — any permutation of the contestant sequence
produces the identical mapping (hence two runs on identical inputs do too). -/
theorem dhondt_perm_invariant :
    ∀ (l₁ l₂ : List Contender) (seats : ℕ), l₁.Perm l₂ →
      dhondt_allocation l₁ seats = dhondt_allocation l₂ seats :=
  fun _ _ seats h => dhondt_allocation_perm h seats

/-- Witness for claim C9 at a concrete permuted pair. -/
theorem dhondt_perm_invariant_witness :
    dhondt_allocation [⟨"A", 5⟩, ⟨"B", 3⟩] 2 = dhondt_allocation [⟨"B", 3⟩, ⟨"A", 5⟩] 2 :=
  dhondt_perm_invariant _ _ 2 (List.Perm.swap _ _ _)

/-- Claim C10: every value of the returned mapping is at least `1`, and the
key set is exactly the set of contestants that won at least one seat (a
positive-vote contestant without a seat is absent, not mapped to `0`). -/
theorem dhondt_alloc_keys_won_seats (pacts : List Contender) (seats : ℕ) :
    (∀ pr ∈ dhondt_allocation pacts seats, 1 ≤ pr.2) ∧
      ∀ c : String,
        (∃ n, (c, n) ∈ dhondt_allocation pacts seats) ↔ c ∈ winnerCodes pacts seats := by
  constructor
  · intro pr hpr
    unfold dhondt_allocation at hpr
    rcases List.mem_map.mp hpr with ⟨d, hd, rfl⟩
    exact List.count_pos_iff.mpr ((mem_firstDedup _ _).mp hd)
  · intro c
    constructor
    · rintro ⟨n, hn⟩
      unfold dhondt_allocation at hn
      rcases List.mem_map.mp hn with ⟨d, hd, hEq⟩
      have : d = c := congrArg Prod.fst hEq
      subst this
      exact (mem_firstDedup _ _).mp hd
    · intro hc
      exact ⟨_, List.mem_map.mpr ⟨c, (mem_firstDedup _ _).mpr hc, rfl⟩⟩

/-! ### Monotonicity of the allocation in the vote vector -/



theorem kpool_eq_flatMap (l : List Contender) (S : ℕ) :
    kpool l S = l.flatMap (entryKeys S) := by
  unfold kpool dhondtQuotients
  rw [List.map_flatMap]
  have : (fun p => List.map seatKey
      (if p.votes ≤ 0 then []
       else (List.range S).map fun (d : ℕ) =>
        { pact_code := p.code, quotient := p.votes / ((d : ℚ) + 1), divisor := d + 1,
          raw_votes := p.votes })) = entryKeys S := by
    funext p
    by_cases hp : p.votes ≤ 0
    · simp [hp, entryKeys]
    · simp only [if_neg hp, entryKeys, List.map_map]
      exact List.map_congr_left fun d _ => rfl
  rw [this]

theorem keyCode_entryKeys {S : ℕ} {p : Contender} {k : DKey} (hk : k ∈ entryKeys S p) :
    keyCode k = p.code.data := by
  unfold entryKeys at hk
  by_cases hp : p.votes ≤ 0
  · rw [if_pos hp] at hk
    cases hk
  · rw [if_neg hp] at hk
    rcases List.mem_map.mp hk with ⟨d, _, rfl⟩
    rfl

theorem entryKeys_key_le {p q : Contender} (hcode : p.code = q.code)
    (hv : q.votes ≤ p.votes) (d : ℕ) :
    (toLex (-(p.votes / ((d : ℚ) + 1)), toLex (-p.votes, p.code.data)) : DKey) ≤
      toLex (-(q.votes / ((d : ℚ) + 1)), toLex (-q.votes, q.code.data)) := by
  rcases eq_or_lt_of_le hv with hEq | hlt
  · rw [hEq, hcode]
  · refine (Prod.Lex.le_iff _ _).mpr (Or.inl ?_)
    have hdpos : (0 : ℚ) < (d : ℚ) + 1 := by positivity
    have hdiv : q.votes / ((d : ℚ) + 1) < p.votes / ((d : ℚ) + 1) :=
      (div_lt_div_iff_of_pos_right hdpos).mpr hlt
    simpa using hdiv

theorem entryKeys_countP_le {p q : Contender} (hcode : p.code = q.code)
    (hv : q.votes ≤ p.votes ∨ (q.votes ≤ 0 ∧ p.votes ≤ 0)) (S : ℕ) (w : DKey) :
    ((entryKeys S q).countP fun x => x < w) ≤ (entryKeys S p).countP fun x => x < w := by
  by_cases hq : q.votes ≤ 0
  · unfold entryKeys
    rw [if_pos hq]
    simp
  · have hvv : q.votes ≤ p.votes := by
      rcases hv with h | ⟨h1, _⟩
      · exact h
      · exact absurd h1 hq
    have hp : ¬ p.votes ≤ 0 := fun hple => hq (le_trans hvv hple)
    unfold entryKeys
    rw [if_neg hq, if_neg hp, List.countP_map, List.countP_map]
    refine List.countP_mono_left fun d _ hd => ?_
    simp only [Function.comp_apply, decide_eq_true_eq] at hd ⊢
    exact lt_of_le_of_lt (entryKeys_key_le hcode hvv d) hd

theorem entryKeys_length_le {p q : Contender}
    (hv : q.votes ≤ p.votes ∨ (q.votes ≤ 0 ∧ p.votes ≤ 0)) (S : ℕ) :
    (entryKeys S q).length ≤ (entryKeys S p).length := by
  by_cases hq : q.votes ≤ 0
  · unfold entryKeys
    rw [if_pos hq]
    simp
  · have hvv : q.votes ≤ p.votes := by
      rcases hv with h | ⟨h1, _⟩
      · exact h
      · exact absurd h1 hq
    have hp : ¬ p.votes ≤ 0 := fun hple => hq (le_trans hvv hple)
    unfold entryKeys
    rw [if_neg hq, if_neg hp]
    simp

theorem flatMap_countP_le {R : Contender → Contender → Prop}
    (hR : ∀ p q, R p q → p.code = q.code ∧ (q.votes ≤ p.votes ∨ (q.votes ≤ 0 ∧ p.votes ≤ 0)))
    (S : ℕ) (w : DKey) :
    ∀ {l l' : List Contender}, List.Forall₂ R l l' →
      ((l'.flatMap (entryKeys S)).countP fun x => x < w) ≤
        (l.flatMap (entryKeys S)).countP fun x => x < w := by
  intro l l' h
  induction h with
  | nil => simp
  | @cons p q tl tl' hpq _ ih =>
    rw [List.flatMap_cons, List.flatMap_cons, List.countP_append, List.countP_append]
    exact Nat.add_le_add (entryKeys_countP_le (hR _ _ hpq).1 (hR _ _ hpq).2 S w) ih

theorem flatMap_length_le {R : Contender → Contender → Prop}
    (hR : ∀ p q, R p q → q.votes ≤ p.votes ∨ (q.votes ≤ 0 ∧ p.votes ≤ 0)) (S : ℕ) :
    ∀ {l l' : List Contender}, List.Forall₂ R l l' →
      (l'.flatMap (entryKeys S)).length ≤ (l.flatMap (entryKeys S)).length := by
  intro l l' h
  induction h with
  | nil => simp
  | @cons p q tl tl' hpq _ ih =>
    rw [List.flatMap_cons, List.flatMap_cons, List.length_append, List.length_append]
    exact Nat.add_le_add (entryKeys_length_le (hR _ _ hpq) S) ih

/-- Filtering both sides of a code-preserving `Forall₂` by a condition on the
code keeps the lists aligned, and records the condition. -/
theorem forall₂_filter_code {R : Contender → Contender → Prop}
    (hcode : ∀ p q, R p q → p.code = q.code) (g : String → Bool) :
    ∀ {l l' : List Contender}, List.Forall₂ R l l' →
      List.Forall₂ (fun p q => R p q ∧ g p.code = true)
        (l.filter fun e => g e.code) (l'.filter fun e => g e.code) := by
  intro l l' h
  induction h with
  | nil => simp
  | @cons p q tl tl' hpq _ ih =>
    have hc := hcode _ _ hpq
    by_cases hg : g q.code = true
    · rw [List.filter_cons, List.filter_cons, if_pos (by rw [hc]; exact hg), if_pos hg]
      exact List.Forall₂.cons ⟨hpq, by rw [hc]; exact hg⟩ ih
    · rw [List.filter_cons, List.filter_cons, if_neg (by rw [hc]; exact hg), if_neg hg]
      exact ih

theorem ccount_via_pcount (M : List DKey) (S : ℕ) (c : String) :
    (((sortLE M).take S).countP fun k => decide (keyCode k = c.data)) =
      min S M.length - ((sortLE M).take S).countP fun k => decide (¬ keyCode k = c.data) := by
  have hlen : ((sortLE M).take S).length = min S M.length := by
    rw [List.length_take, (sortLE_perm M).length_eq]
  have h := List.length_eq_countP_add_countP (fun k => decide (keyCode k = c.data))
    ((sortLE M).take S)
  have hc : (((sortLE M).take S).countP fun a =>
        decide (¬ (decide (keyCode a = c.data)) = true)) =
      ((sortLE M).take S).countP fun k => decide (¬ keyCode k = c.data) :=
    List.countP_congr fun x _ => by simp
  rw [hc] at h
  omega





theorem teamCount_perm (c : String) (S : ℕ) {M M' : List DKey} (h : M.Perm M') :
    teamCount c S M = teamCount c S M' := by
  unfold teamCount
  rw [sortLE_congr_perm h]

theorem allocGet_eq_teamCount (l : List Contender) (S : ℕ) (c : String) :
    allocGet (dhondt_allocation l S) c = teamCount c S (kpool l S) := by
  rw [allocGet_eq_count, count_winnerCodes]
  rfl

/-- Team monotonicity of the D'Hondt allocation: lowering the votes of team
`c` while raising everyone else's (codes, positions and `seats` fixed) never
increases team `c`'s seats. -/
theorem allocGet_team_mono (c : String) (S : ℕ) {l l' : List Contender}
    (h : List.Forall₂ (TeamRel c) l l') :
    allocGet (dhondt_allocation l' S) c ≤ allocGet (dhondt_allocation l S) c := by
  classical
  set g : String → Bool := fun s => decide (s = c) with hgdef
  set A : List DKey := (l.filter fun e => g e.code).flatMap (entryKeys S) with hAdef
  set A' : List DKey := (l'.filter fun e => g e.code).flatMap (entryKeys S) with hA'def
  set B : List DKey := (l.filter fun x => !g x.code).flatMap (entryKeys S) with hBdef
  set B' : List DKey := (l'.filter fun x => !g x.code).flatMap (entryKeys S) with hB'def
  have hsplit : ∀ m : List Contender, (kpool m S).Perm
      (((m.filter fun e => g e.code).flatMap (entryKeys S)) ++
        ((m.filter fun x => !g x.code).flatMap (entryKeys S))) := by
    intro m
    rw [kpool_eq_flatMap, ← List.flatMap_append]
    exact ((List.filter_append_perm (fun e => g e.code) m).flatMap_right (entryKeys S)).symm
  -- alignment of the filtered team lists
  have hFc := forall₂_filter_code (fun p q hr => hr.1) g h
  have hFn := forall₂_filter_code (fun p q hr => hr.1) (fun s => !g s) h
  -- domination facts
  have hdomA : ∀ w : DKey, (A'.countP fun x => x < w) ≤ A.countP fun x => x < w := by
    intro w
    refine flatMap_countP_le ?_ S w hFc
    intro p q hr
    refine ⟨hr.1.1, hr.1.2.1 (of_decide_eq_true (by simpa [hgdef] using hr.2))⟩
  have hlenA : A'.length ≤ A.length := by
    refine flatMap_length_le ?_ S hFc
    intro p q hr
    exact hr.1.2.1 (of_decide_eq_true (by simpa [hgdef] using hr.2))
  have hdomB : ∀ w : DKey, (B.countP fun x => x < w) ≤ B'.countP fun x => x < w := by
    intro w
    refine flatMap_countP_le ?_ S w hFn.flip
    intro q p hr
    have hnc : ¬ p.code = c := by
      have hb := hr.2
      simp only [hgdef, Bool.not_eq_true', decide_eq_false_iff_not] at hb
      exact hb
    rcases hr.1.2.2 hnc with hle | hnp
    · exact ⟨hr.1.1.symm, Or.inl hle⟩
    · exact ⟨hr.1.1.symm, Or.inr ⟨hnp.1, hnp.2⟩⟩
  -- key-code membership facts
  have hmemc : ∀ (m : List Contender) (k : DKey),
      k ∈ (m.filter fun e => g e.code).flatMap (entryKeys S) →
        decide (keyCode k = c.data) = true := by
    intro m k hk
    rcases List.mem_flatMap.mp hk with ⟨e, he, hke⟩
    have hgc := (List.mem_filter.mp he).2
    simp only [hgdef, decide_eq_true_eq] at hgc
    rw [keyCode_entryKeys hke, hgc]
    simp
  have hmemn : ∀ (m : List Contender) (k : DKey),
      k ∈ (m.filter fun x => !g x.code).flatMap (entryKeys S) →
        decide (keyCode k = c.data) = false := by
    intro m k hk
    rcases List.mem_flatMap.mp hk with ⟨e, he, hke⟩
    have hne : ¬ e.code = c := by
      have hb := (List.mem_filter.mp he).2
      simp only [hgdef, Bool.not_eq_true', decide_eq_false_iff_not] at hb
      exact hb
    have : ¬ (keyCode k = c.data) := by
      rw [keyCode_entryKeys hke]
      exact fun hd => hne (String.ext hd)
    simpa using this
  -- step 2: worsening the other teams from B to B'
  have step2 : teamCount c S (A' ++ B') ≤ teamCount c S (A' ++ B) := by
    refine countP_take_sortLE_le _ A' B B' (fun x hx => hmemc l' x hx) ?_ ?_
      (fun w _ => hdomB w) S
    · intro x hx
      exact hmemn l x hx
    · intro x hx
      exact hmemn l' x hx
  -- step 1: worsening team c from A to A', counted through the complement
  have step1 : (((sortLE (B ++ A)).take S).countP fun k => decide (¬ keyCode k = c.data)) ≤
      ((sortLE (B ++ A')).take S).countP fun k => decide (¬ keyCode k = c.data) := by
    refine countP_take_sortLE_le _ B A' A ?_ ?_ ?_ (fun w _ => hdomA w) S
    · intro x hx
      have := hmemn l x hx
      simpa using this
    · intro x hx
      have := hmemc l' x hx
      simpa using this
    · intro x hx
      have := hmemc l x hx
      simpa using this
  have stepm : teamCount c S (B ++ A') ≤ teamCount c S (B ++ A) := by
    unfold teamCount
    rw [ccount_via_pcount, ccount_via_pcount]
    have hb1 : (((sortLE (B ++ A)).take S).countP fun k => decide (¬ keyCode k = c.data)) ≤
        min S (B ++ A).length := by
      calc (((sortLE (B ++ A)).take S).countP fun k => decide (¬ keyCode k = c.data)) ≤
            ((sortLE (B ++ A)).take S).length := List.countP_le_length _
        _ = min S (B ++ A).length := by
            rw [List.length_take, (sortLE_perm _).length_eq]
    have hln : (B ++ A').length ≤ (B ++ A).length := by
      rw [List.length_append, List.length_append]
      exact Nat.add_le_add_left hlenA _
    omega
  -- assemble the chain
  rw [allocGet_eq_teamCount, allocGet_eq_teamCount,
    teamCount_perm c S (hsplit l), teamCount_perm c S (hsplit l')]
  calc teamCount c S (A' ++ B') ≤ teamCount c S (A' ++ B) := step2
    _ = teamCount c S (B ++ A') := teamCount_perm c S List.perm_append_comm
    _ ≤ teamCount c S (B ++ A) := stepm
    _ = teamCount c S (A ++ B) := teamCount_perm c S List.perm_append_comm

/-- Witness for claim C10 at a concrete input. -/
theorem dhondt_alloc_keys_won_seats_witness :
    1 ≤ ((("A", 2) : String × ℕ)).2 ∧ "A" ∈ winnerCodes [⟨"A", 10⟩] 2 :=
  ⟨(dhondt_alloc_keys_won_seats [⟨"A", 10⟩] 2).1 ("A", 2) (by decide),
    ((dhondt_alloc_keys_won_seats [⟨"A", 10⟩] 2).2 "A").mp ⟨2, by decide⟩⟩

/-- Claim C3: increasing one contestant's vote total (all identifiers, the
other contestants' votes and the seat count fixed) never decreases the seats
`dhondt_allocation` awards to that contestant's identifier. -/
theorem dhondt_vote_monotone (pre post : List Contender) (c : String) (v v' : ℚ) (S : ℕ)
    (h : v ≤ v') :
    allocGet (dhondt_allocation (pre ++ ⟨c, v⟩ :: post) S) c ≤
      allocGet (dhondt_allocation (pre ++ ⟨c, v'⟩ :: post) S) c := by
  refine allocGet_team_mono c S ?_
  have hrefl : ∀ m : List Contender, List.Forall₂ (TeamRel c) m m :=
    fun m => List.forall₂_same.mpr fun e _ =>
      ⟨rfl, fun _ => Or.inl le_rfl, fun _ => Or.inl le_rfl⟩
  have hmid : TeamRel c ⟨c, v'⟩ ⟨c, v⟩ := ⟨rfl, fun _ => Or.inl h, fun hc => absurd rfl hc⟩
  exact List.rel_append (hrefl pre) (List.Forall₂.cons hmid (hrefl post))



theorem voteLoss_fold_no_label (label : String) :
    ∀ (l : List Contender), (∀ q ∈ l, ¬ q.code = label) →
      ∀ st : Option ℚ × List Contender × ℚ,
        l.foldl (voteLossStep label) st =
          (st.1, st.2.1 ++ l, st.2.2 + (l.map fun p => p.votes).sum) := by
  intro l
  induction l with
  | nil => intro _ st; simp
  | cons p t ih =>
    intro hl st
    have hp : ¬ p.code = label := hl p (List.mem_cons_self p t)
    rw [List.foldl_cons]
    rw [ih (fun q hq => hl q (List.mem_cons_of_mem p hq)) _]
    unfold voteLossStep
    rw [if_neg hp]
    simp
    ring

/-- Evaluation of the scan when exactly one pact carries the merged label. -/
theorem voteLoss_fold_unique (label : String) (pre post : List Contender) (m : ℚ)
    (hpre : ∀ q ∈ pre, ¬ q.code = label) (hpost : ∀ q ∈ post, ¬ q.code = label) :
    (pre ++ ⟨label, m⟩ :: post).foldl (voteLossStep label) (none, [], 0) =
      (some m, pre ++ post, ((pre ++ post).map fun p => p.votes).sum) := by
  rw [List.foldl_append, voteLoss_fold_no_label label pre hpre _, List.foldl_cons]
  have hmid : voteLossStep label
      ((none : Option ℚ), ([] : List Contender) ++ pre,
        (0 : ℚ) + (pre.map fun p => p.votes).sum) ⟨label, m⟩ =
      (some m, pre, (pre.map fun p => p.votes).sum) := by
    unfold voteLossStep
    rw [if_pos rfl]
    simp
  rw [hmid, voteLoss_fold_no_label label post hpost _]
  simp [List.map_append, List.sum_append]

/-- Witness for claim C3 at a concrete input. -/
theorem dhondt_vote_monotone_witness :
    (5 : ℚ) ≤ 7 ∧
      allocGet (dhondt_allocation [⟨"A", 5⟩, ⟨"B", 6⟩] 2) "A" ≤
        allocGet (dhondt_allocation [⟨"A", 7⟩, ⟨"B", 6⟩] 2) "A" :=
  ⟨by decide, dhondt_vote_monotone [] [⟨"B", 6⟩] "A" 5 7 2 (by decide)⟩

/-- Evaluation of `_pacts_with_vote_loss` when exactly one pact carries the
merged label and the fraction is in range. -/
theorem pactsWithVoteLoss_unique (pre post : List Contender) (label : String) (m f : ℚ)
    (hpre : ∀ q ∈ pre, ¬ q.code = label) (hpost : ∀ q ∈ post, ¬ q.code = label)
    (hf0 : 0 ≤ f) (hf1 : f ≤ 1) :
    pactsWithVoteLoss (pre ++ ⟨label, m⟩ :: post) label f =
      (if m * f ≤ 0 ∨ ((pre ++ post).map fun p => p.votes).sum ≤ 0 then
        Except.ok (⟨label, m - m * f⟩ :: (pre ++ post))
      else
        Except.ok (⟨label, m - m * f⟩ :: (pre ++ post).map fun p =>
          ⟨p.code, p.votes + m * f * (p.votes / ((pre ++ post).map fun p => p.votes).sum)⟩)) := by
  unfold pactsWithVoteLoss
  rw [if_neg (not_not_intro ⟨hf0, hf1⟩), voteLoss_fold_unique label pre post m hpre hpost]

/-- Sum of boosted votes: distributing `c * (votes / O)` to every entry adds
`c * (total / O)` to the total (a pure field identity). -/
theorem sum_votes_boost (l : List Contender) (c O : ℚ) :
    (l.map fun p => p.votes + c * (p.votes / O)).sum =
      (l.map fun p => p.votes).sum + c * ((l.map fun p => p.votes).sum / O) := by
  induction l with
  | nil => simp
  | cons p t ih =>
    simp only [List.map_cons, List.sum_cons, ih]
    ring

/-- Claim C4 (amended): for a pact list with non-negative votes in which
exactly one pact bears the merged label and any `f ∈ [0,1]`,
`_pacts_with_vote_loss` conserves the total votes, except that when the
combined votes of the other pacts are zero the total drops by exactly
`f * merged votes` (the lost votes vanish). -/
theorem pactsWithVoteLoss_conserves (pre post : List Contender) (label : String) (m f : ℚ)
    (hpre : ∀ q ∈ pre, ¬ q.code = label) (hpost : ∀ q ∈ post, ¬ q.code = label)
    (hnn : ∀ q ∈ pre ++ post, 0 ≤ q.votes) (hm : 0 ≤ m) (hf0 : 0 ≤ f) (hf1 : f ≤ 1) :
    ∃ out, pactsWithVoteLoss (pre ++ ⟨label, m⟩ :: post) label f = Except.ok out ∧
      (out.map fun p => p.votes).sum =
        ((pre ++ ⟨label, m⟩ :: post).map fun p => p.votes).sum -
          (if ((pre ++ post).map fun p => p.votes).sum = 0 then f * m else 0) := by
  have hOnn : 0 ≤ ((pre ++ post).map fun p => p.votes).sum :=
    List.sum_nonneg fun x hx => by
      rcases List.mem_map.mp hx with ⟨q, hq, rfl⟩
      exact hnn q hq
  have htot : ((pre ++ ⟨label, m⟩ :: post).map fun p => p.votes).sum =
      m + ((pre ++ post).map fun p => p.votes).sum := by
    simp [List.map_append, List.sum_append]
    ring
  rw [pactsWithVoteLoss_unique pre post label m f hpre hpost hf0 hf1, htot]
  by_cases hbr : m * f ≤ 0 ∨ ((pre ++ post).map fun p => p.votes).sum ≤ 0
  · rw [if_pos hbr]
    refine ⟨_, rfl, ?_⟩
    simp only [List.map_cons, List.sum_cons]
    by_cases hO : ((pre ++ post).map fun p => p.votes).sum = 0
    · rw [if_pos hO, hO]
      ring
    · rw [if_neg hO]
      have hmf : m * f = 0 := by
        rcases hbr with h | h
        · exact le_antisymm h (mul_nonneg hm hf0)
        · exact absurd (le_antisymm h hOnn) hO
      rw [hmf]
      ring
  · rw [if_neg hbr]
    push_neg at hbr
    have hO : ((pre ++ post).map fun p => p.votes).sum ≠ 0 := ne_of_gt hbr.2
    refine ⟨_, rfl, ?_⟩
    simp only [List.map_cons, List.sum_cons, List.map_map]
    have hcomp : ((pre ++ post).map
        ((fun p : Contender => p.votes) ∘ fun p : Contender =>
          (⟨p.code, p.votes + m * f * (p.votes / ((pre ++ post).map fun p => p.votes).sum)⟩ :
            Contender))) =
        (pre ++ post).map fun p =>
          p.votes + m * f * (p.votes / ((pre ++ post).map fun p => p.votes).sum) :=
      List.map_congr_left fun q _ => rfl
    rw [hcomp, sum_votes_boost, div_self hO, if_neg hO]
    ring

/-- Claim C4, as stated, is false when two pacts carry the merged label: the
scan keeps only the votes of the last matching pact, so the earlier one's
votes disappear even though the other pacts have positive combined votes. -/
theorem pactsWithVoteLoss_conserves_counterexample :
    pactsWithVoteLoss [⟨"M", 5⟩, ⟨"M", 7⟩, ⟨"X", 3⟩] "M" 0 = Except.ok [⟨"M", 7⟩, ⟨"X", 3⟩] ∧
      (([⟨"M", 7⟩, ⟨"X", 3⟩] : List Contender).map fun p => p.votes).sum ≠
        (([⟨"M", 5⟩, ⟨"M", 7⟩, ⟨"X", 3⟩] : List Contender).map fun p => p.votes).sum ∧
      ((([⟨"M", 5⟩, ⟨"M", 7⟩, ⟨"X", 3⟩] : List Contender).filter fun p =>
          ¬ p.code = "M").map fun p => p.votes).sum ≠ 0 := by
  refine ⟨by rfl, by decide, by decide⟩

/-- Witness for claim C4 (amended) at a concrete input. -/
theorem pactsWithVoteLoss_conserves_witness :
    ∃ out, pactsWithVoteLoss [⟨"M", 1000⟩, ⟨"C", 500⟩, ⟨"NB", 250⟩] "M" (1 / 5) =
        Except.ok out ∧
      (out.map fun p => p.votes).sum =
        (([⟨"M", 1000⟩, ⟨"C", 500⟩, ⟨"NB", 250⟩] : List Contender).map fun p => p.votes).sum -
          (if (([⟨"C", 500⟩, ⟨"NB", 250⟩] : List Contender).map fun p => p.votes).sum = 0
            then (1 / 5 : ℚ) * 1000 else 0) :=
  pactsWithVoteLoss_conserves [] [⟨"C", 500⟩, ⟨"NB", 250⟩] "M" 1000 (1 / 5)
    (by simp) (by decide) (by decide) (by decide) (by decide) (by decide)

/-- Claim C5: `_indifference_loss_percentage` returns exactly `0` whenever the
scenario seats do not exceed the baseline seats, and
`_national_indifference_loss` returns exactly `0` whenever the national
scenario total is at most the national baseline total or the district list is
empty. -/
theorem indifference_zero_without_gain :
    (∀ (mp : List Contender) (label : String) (seats baseline current : ℕ),
        current ≤ baseline →
          indifferenceLossPercentage mp label seats baseline current = Except.ok 0) ∧
      ∀ (circs : List NationalScenario) (bt ct : ℕ),
        circs = [] ∨ ct ≤ bt → nationalIndifferenceLoss circs bt ct = Except.ok 0 := by
  constructor
  · intro mp label seats baseline current h
    unfold indifferenceLossPercentage
    rw [if_pos h]
  · intro circs bt ct h
    unfold nationalIndifferenceLoss
    rw [if_pos h]

/-- Witness for claim C5 at concrete inputs. -/
theorem indifference_zero_without_gain_witness :
    ((1 : ℕ) ≤ 1 ∧
        indifferenceLossPercentage [⟨"A+B", 1000⟩, ⟨"C", 1200⟩] "A+B" 2 1 1 = Except.ok 0) ∧
      ((([] : List NationalScenario) = [] ∨ (3 : ℕ) ≤ 3) ∧
        nationalIndifferenceLoss [] 3 3 = Except.ok 0) :=
  ⟨⟨le_refl 1, indifference_zero_without_gain.1 _ "A+B" 2 1 1 (le_refl 1)⟩,
    ⟨Or.inl rfl, indifference_zero_without_gain.2 [] 3 3 (Or.inl rfl)⟩⟩

/-- If every contestant carrying code `c` has non-positive votes, `c` wins no
seats (it never even enters the quotient pool). -/
theorem allocGet_zero_of_nonpos (l : List Contender) (S : ℕ) (c : String)
    (h : ∀ e ∈ l, e.code = c → e.votes ≤ 0) :
    allocGet (dhondt_allocation l S) c = 0 := by
  rw [allocGet_eq_count]
  refine List.count_eq_zero.mpr fun hmem => ?_
  unfold winnerCodes at hmem
  rcases List.mem_map.mp hmem with ⟨s, hs, hcode⟩
  have hs2 : s ∈ dhondtQuotients l S :=
    (List.perm_insertionSort _ _).mem_iff.mp (List.mem_of_mem_take hs)
  unfold dhondtQuotients at hs2
  rcases List.mem_flatMap.mp hs2 with ⟨p, hp, hsp⟩
  by_cases hv : p.votes ≤ 0
  · rw [if_pos hv] at hsp
    cases hsp
  · rw [if_neg hv] at hsp
    rcases List.mem_map.mp hsp with ⟨d, _, rfl⟩
    exact hv (h p hp hcode)

/-- `_pacts_with_vote_loss` succeeds and returns `lossScenario` when exactly
one pact bears the merged label and the fraction is in range. -/
theorem pactsWithVoteLoss_ok (pre post : List Contender) (label : String) (m f : ℚ)
    (hpre : ∀ q ∈ pre, ¬ q.code = label) (hpost : ∀ q ∈ post, ¬ q.code = label)
    (hf0 : 0 ≤ f) (hf1 : f ≤ 1) :
    pactsWithVoteLoss (pre ++ ⟨label, m⟩ :: post) label f =
      Except.ok (lossScenario pre post label m f) := by
  rw [pactsWithVoteLoss_unique pre post label m f hpre hpost hf0 hf1]
  unfold lossScenario
  rw [apply_ite Except.ok]

/-- In a `lossScenario`, the merged label carries exactly the reduced votes. -/
theorem lossScenario_label_votes (pre post : List Contender) (label : String) (m f : ℚ)
    (hpre : ∀ q ∈ pre, ¬ q.code = label) (hpost : ∀ q ∈ post, ¬ q.code = label) :
    ∀ e ∈ lossScenario pre post label m f, e.code = label → e.votes = m - m * f := by
  intro e he hec
  unfold lossScenario at he
  by_cases hc : m * f ≤ 0 ∨ ((pre ++ post).map fun p => p.votes).sum ≤ 0
  · rw [if_pos hc] at he
    rcases List.mem_cons.mp he with rfl | hmem
    · rfl
    · rcases List.mem_append.mp hmem with hq | hq
      · exact absurd hec (hpre _ hq)
      · exact absurd hec (hpost _ hq)
  · rw [if_neg hc] at he
    rcases List.mem_cons.mp he with rfl | hmem
    · rfl
    · rcases List.mem_map.mp hmem with ⟨p, hp, rfl⟩
      rcases List.mem_append.mp hp with hq | hq
      · exact absurd hec (hpre p hq)
      · exact absurd hec (hpost p hq)

/-- A zero loss fraction reproduces the allocation of the input pacts. -/
theorem seatsAtLoss_zero (pre post : List Contender) (label : String) (m : ℚ) (seats : ℕ) :
    seatsAtLoss pre post label m seats 0 =
      allocGet (dhondt_allocation (pre ++ ⟨label, m⟩ :: post) seats) label := by
  unfold seatsAtLoss lossScenario
  rw [if_pos (Or.inl (by simp))]
  have hm : (⟨label, m - m * 0⟩ : Contender) = ⟨label, m⟩ := by simp
  rw [hm, dhondt_allocation_perm List.perm_middle.symm seats]

/-- At full loss the merged alliance has zero votes and wins nothing. -/
theorem seatsAtLoss_one (pre post : List Contender) (label : String) (m : ℚ) (seats : ℕ)
    (hpre : ∀ q ∈ pre, ¬ q.code = label) (hpost : ∀ q ∈ post, ¬ q.code = label) :
    seatsAtLoss pre post label m seats 1 = 0 := by
  unfold seatsAtLoss
  refine allocGet_zero_of_nonpos _ _ _ fun e he hec => ?_
  rw [lossScenario_label_votes pre post label m 1 hpre hpost e he hec]
  simp

theorem forall₂_map_right_of {R : Contender → Contender → Prop} (g : Contender → Contender) :
    ∀ l : List Contender, (∀ e ∈ l, R e (g e)) → List.Forall₂ R l (l.map g) := by
  intro l
  induction l with
  | nil => intro _; simp
  | cons e t ih =>
    intro h
    exact List.Forall₂.cons (h e (List.mem_cons_self e t))
      (ih fun x hx => h x (List.mem_cons_of_mem e hx))

theorem forall₂_map_both {R : Contender → Contender → Prop} (g₁ g₂ : Contender → Contender) :
    ∀ l : List Contender, (∀ e ∈ l, R (g₁ e) (g₂ e)) →
      List.Forall₂ R (l.map g₁) (l.map g₂) := by
  intro l
  induction l with
  | nil => intro _; simp
  | cons e t ih =>
    intro h
    exact List.Forall₂.cons (h e (List.mem_cons_self e t))
      (ih fun x hx => h x (List.mem_cons_of_mem e hx))

/-- The merged alliance's seat count is antitone in the loss fraction: raising
the loss can only lower (never raise) the merged seats. -/
theorem seatsAtLoss_antitone (pre post : List Contender) (label : String) (m : ℚ) (seats : ℕ)
    (hpre : ∀ q ∈ pre, ¬ q.code = label) (hpost : ∀ q ∈ post, ¬ q.code = label)
    (f₁ f₂ : ℚ) (h0 : 0 ≤ f₁) (h12 : f₁ ≤ f₂) (h21 : f₂ ≤ 1) :
    seatsAtLoss pre post label m seats f₂ ≤ seatsAtLoss pre post label m seats f₁ := by
  by_cases hm : m ≤ 0
  · have z : ∀ f, f ≤ 1 → seatsAtLoss pre post label m seats f = 0 := by
      intro f hf1
      refine allocGet_zero_of_nonpos _ _ _ fun e he hec => ?_
      rw [lossScenario_label_votes pre post label m f hpre hpost e he hec]
      nlinarith
    rw [z f₂ h21, z f₁ (le_trans h12 h21)]
  · push_neg at hm
    refine allocGet_team_mono label seats ?_
    have hhead : TeamRel label ⟨label, m - m * f₁⟩ ⟨label, m - m * f₂⟩ := by
      refine ⟨rfl, fun _ => Or.inl ?_, fun hc => absurd rfl hc⟩
      dsimp only
      nlinarith
    have hrefl : List.Forall₂ (TeamRel label) (pre ++ post) (pre ++ post) :=
      List.forall₂_same.mpr fun e _ => ⟨rfl, fun _ => Or.inl le_rfl, fun _ => Or.inl le_rfl⟩
    have hne : ∀ e ∈ pre ++ post, ¬ e.code = label := by
      intro e he
      rcases List.mem_append.mp he with hq | hq
      · exact hpre e hq
      · exact hpost e hq
    unfold lossScenario
    by_cases hO : ((pre ++ post).map fun p => p.votes).sum ≤ 0
    · rw [if_pos (Or.inr hO), if_pos (Or.inr hO)]
      exact List.Forall₂.cons hhead hrefl
    · push_neg at hO
      by_cases h1 : m * f₁ ≤ 0
      · by_cases h2 : m * f₂ ≤ 0
        · rw [if_pos (Or.inl h1), if_pos (Or.inl h2)]
          exact List.Forall₂.cons hhead hrefl
        · push_neg at h2
          rw [if_pos (Or.inl h1), if_neg (by push_neg; exact ⟨h2, hO⟩)]
          refine List.Forall₂.cons hhead (forall₂_map_right_of _ (pre ++ post) fun e he => ?_)
          refine ⟨rfl, fun hec => absurd hec (hne e he), fun _ => ?_⟩
          dsimp only
          by_cases hv : 0 ≤ e.votes
          · refine Or.inl ?_
            have hb : 0 ≤ m * f₂ * (e.votes / ((pre ++ post).map fun p => p.votes).sum) :=
              mul_nonneg (le_of_lt h2) (div_nonneg hv (le_of_lt hO))
            linarith
          · push_neg at hv
            have hdiv : e.votes / ((pre ++ post).map fun p => p.votes).sum ≤ 0 :=
              div_nonpos_of_nonpos_of_nonneg (le_of_lt hv) (le_of_lt hO)
            have hb : m * f₂ * (e.votes / ((pre ++ post).map fun p => p.votes).sum) ≤ 0 :=
              mul_nonpos_of_nonneg_of_nonpos (le_of_lt h2) hdiv
            exact Or.inr ⟨le_of_lt hv, by linarith⟩
      · push_neg at h1
        have hmul : m * f₁ ≤ m * f₂ := mul_le_mul_of_nonneg_left h12 (le_of_lt hm)
        have h2 : 0 < m * f₂ := lt_of_lt_of_le h1 hmul
        rw [if_neg (by push_neg; exact ⟨h1, hO⟩), if_neg (by push_neg; exact ⟨h2, hO⟩)]
        refine List.Forall₂.cons hhead (forall₂_map_both _ _ (pre ++ post) fun e he => ?_)
        refine ⟨rfl, fun hec => absurd hec (hne e he), fun _ => ?_⟩
        dsimp only
        by_cases hv : 0 ≤ e.votes
        · refine Or.inl ?_
          have hdiv : 0 ≤ e.votes / ((pre ++ post).map fun p => p.votes).sum :=
            div_nonneg hv (le_of_lt hO)
          have hb := mul_le_mul_of_nonneg_right hmul hdiv
          linarith
        · push_neg at hv
          have hdiv : e.votes / ((pre ++ post).map fun p => p.votes).sum ≤ 0 :=
            div_nonpos_of_nonpos_of_nonneg (le_of_lt hv) (le_of_lt hO)
          have hb1 : m * f₁ * (e.votes / ((pre ++ post).map fun p => p.votes).sum) ≤ 0 :=
            mul_nonpos_of_nonneg_of_nonpos (le_of_lt h1) hdiv
          have hb2 : m * f₂ * (e.votes / ((pre ++ post).map fun p => p.votes).sum) ≤ 0 :=
            mul_nonpos_of_nonneg_of_nonpos (le_of_lt h2) hdiv
          exact Or.inr ⟨by linarith, by linarith⟩

/-- Invariant-carrying specification of the bisection loop of
`_indifference_loss_percentage`: it returns the upper end of a bracketing
interval `[l, h]` with `l` still above baseline (or untested `0`) and `h`
at-or-below baseline (or untested `1`), whose width is below the tolerance
unless the fuel ran out after halving it `fuel` times. -/
theorem indiffSearch_spec (pre post : List Contender) (label : String) (m : ℚ)
    (seats baseline : ℕ)
    (hpre : ∀ q ∈ pre, ¬ q.code = label) (hpost : ∀ q ∈ post, ¬ q.code = label) :
    ∀ (fuel : ℕ) (low high : ℚ), 0 ≤ low → low < high → high ≤ 1 →
      (low = 0 ∨ baseline < seatsAtLoss pre post label m seats low) →
      (high = 1 ∨ seatsAtLoss pre post label m seats high ≤ baseline) →
      ∃ l h : ℚ,
        indiffSearch (pre ++ ⟨label, m⟩ :: post) label seats baseline fuel low high =
          Except.ok h ∧
        0 ≤ l ∧ l < h ∧ h ≤ 1 ∧
        (l = 0 ∨ baseline < seatsAtLoss pre post label m seats l) ∧
        (h = 1 ∨ seatsAtLoss pre post label m seats h ≤ baseline) ∧
        (h - l ≤ 1 / 10000 ∨ h - l = (high - low) / 2 ^ fuel) := by
  intro fuel
  induction fuel with
  | zero =>
    intro low high hl0 hlh hh1 hinvl hinvh
    refine ⟨low, high, rfl, hl0, hlh, hh1, hinvl, hinvh, Or.inr ?_⟩
    simp
  | succ fuel ih =>
    intro low high hl0 hlh hh1 hinvl hinvh
    have hm0 : 0 ≤ (low + high) / 2 := by linarith
    have hm1 : (low + high) / 2 ≤ 1 := by linarith
    have hlm : low < (low + high) / 2 := by linarith
    have hmh : (low + high) / 2 < high := by linarith
    unfold indiffSearch
    dsimp only
    rw [pactsWithVoteLoss_ok pre post label m _ hpre hpost hm0 hm1]
    dsimp only
    by_cases hcase : baseline < allocGet (dhondt_allocation
        (lossScenario pre post label m ((low + high) / 2)) seats) label
    · rw [if_pos hcase]
      dsimp only
      by_cases htol : high - (low + high) / 2 ≤ 1 / 10000
      · rw [if_pos htol]
        exact ⟨(low + high) / 2, high, rfl, hm0, hmh, hh1, Or.inr hcase, hinvh, Or.inl htol⟩
      · rw [if_neg htol]
        obtain ⟨l, h, hrun, ha, hb, hc, hd, he, hf⟩ :=
          ih ((low + high) / 2) high hm0 hmh hh1 (Or.inr hcase) hinvh
        refine ⟨l, h, hrun, ha, hb, hc, hd, he, ?_⟩
        rcases hf with hf | hf
        · exact Or.inl hf
        · refine Or.inr ?_
          rw [hf, pow_succ]
          have hw : high - (low + high) / 2 = (high - low) / 2 := by ring
          rw [hw]
          ring
    · rw [if_neg hcase]
      dsimp only
      have hmidinv : seatsAtLoss pre post label m seats ((low + high) / 2) ≤ baseline :=
        not_lt.mp hcase
      by_cases htol : (low + high) / 2 - low ≤ 1 / 10000
      · rw [if_pos htol]
        exact ⟨low, (low + high) / 2, rfl, hl0, hlm, hm1, hinvl, Or.inr hmidinv, Or.inl htol⟩
      · rw [if_neg htol]
        obtain ⟨l, h, hrun, ha, hb, hc, hd, he, hf⟩ :=
          ih low ((low + high) / 2) hl0 hlm hm1 hinvl (Or.inr hmidinv)
        refine ⟨l, h, hrun, ha, hb, hc, hd, he, ?_⟩
        rcases hf with hf | hf
        · exact Or.inl hf
        · refine Or.inr ?_
          rw [hf, pow_succ]
          have hw : (low + high) / 2 - low = (high - low) / 2 := by ring
          rw [hw]
          ring

/-- Claim C2 (amended): threshold tightness of the per-district indifference
loss.  Added hypotheses relative to the frozen claim: exactly one pact bears
the merged label, and `current_merged_seats` is the seat count
`dhondt_allocation` actually awards the merged label on `merged_pacts`.
Under them, a returned loss `L > 0` satisfies: re-running the allocation on
`_pacts_with_vote_loss` at `L` gives the merged alliance at most
`baseline_seats` seats, and at `max (L - 1e-4) 0` at least `baseline_seats`. -/
theorem indifference_loss_threshold (pre post : List Contender) (label : String) (m : ℚ)
    (seats baseline current : ℕ) (L : ℚ)
    (hpre : ∀ q ∈ pre, ¬ q.code = label) (hpost : ∀ q ∈ post, ¬ q.code = label)
    (hcur : current = allocGet (dhondt_allocation (pre ++ ⟨label, m⟩ :: post) seats) label)
    (hgain : baseline < current)
    (hL : indifferenceLossPercentage (pre ++ ⟨label, m⟩ :: post) label seats baseline current =
      Except.ok L)
    (hLpos : 0 < L) :
    (∃ sc, pactsWithVoteLoss (pre ++ ⟨label, m⟩ :: post) label L = Except.ok sc ∧
        allocGet (dhondt_allocation sc seats) label ≤ baseline) ∧
      ∃ sc, pactsWithVoteLoss (pre ++ ⟨label, m⟩ :: post) label (max (L - 1 / 10000) 0) =
          Except.ok sc ∧
        baseline ≤ allocGet (dhondt_allocation sc seats) label := by
  unfold indifferenceLossPercentage at hL
  rw [if_neg (not_le.mpr hgain)] at hL
  obtain ⟨l, h, hrun, hl0, hlh, hh1, hinvl, hinvh, hbound⟩ :=
    indiffSearch_spec pre post label m seats baseline hpre hpost 60 0 1
      le_rfl zero_lt_one le_rfl (Or.inl rfl) (Or.inl rfl)
  rw [hrun] at hL
  obtain rfl : L = h := (Except.ok.inj hL).symm
  have htol : L - l ≤ 1 / 10000 := by
    rcases hbound with hb | hb
    · exact hb
    · rw [hb]
      norm_num
  have hh0 : 0 ≤ L := le_trans hl0 (le_of_lt hlh)
  constructor
  · refine ⟨lossScenario pre post label m L,
      pactsWithVoteLoss_ok pre post label m L hpre hpost hh0 hh1, ?_⟩
    show seatsAtLoss pre post label m seats L ≤ baseline
    rcases hinvh with h1 | hle
    · rw [h1, seatsAtLoss_one pre post label m seats hpre hpost]
      exact Nat.zero_le baseline
    · exact hle
  · have hg0 : (0 : ℚ) ≤ max (L - 1 / 10000) 0 := le_max_right _ _
    have hg1 : max (L - 1 / 10000) 0 ≤ 1 := max_le (by linarith) zero_le_one
    refine ⟨lossScenario pre post label m (max (L - 1 / 10000) 0),
      pactsWithVoteLoss_ok pre post label m _ hpre hpost hg0 hg1, ?_⟩
    show baseline ≤ seatsAtLoss pre post label m seats (max (L - 1 / 10000) 0)
    by_cases hgz : L - 1 / 10000 ≤ 0
    · rw [max_eq_right hgz, seatsAtLoss_zero pre post label m seats, ← hcur]
      exact le_of_lt hgain
    · push_neg at hgz
      have hgval : max (L - 1 / 10000) 0 = L - 1 / 10000 := max_eq_left (le_of_lt hgz)
      have hgle : L - 1 / 10000 ≤ l := by linarith
      rcases hinvl with h0 | hstrict
      · exfalso
        rw [h0] at hgle
        linarith
      · have hmono := seatsAtLoss_antitone pre post label m seats hpre hpost
          (max (L - 1 / 10000) 0) l hg0 (by rw [hgval]; exact hgle)
          (le_trans (le_of_lt hlh) hh1)
        exact le_trans (le_of_lt hstrict) hmono

/-- Claim C2, as stated, is false: `current_merged_seats` is an arbitrary
argument, so calling the solver with a claimed gain that the scenario does not
actually have (here `current = 5` while the merged label, with zero votes,
wins no seat at any fraction) makes every probe fall below baseline; the
search then collapses `high` to `2 ^ (-14) = 1/16384`, and re-running at
`max (L - 1e-4) 0 = 0` leaves the merged alliance at `0 < 1 = baseline`
seats, violating the second half of the claim. -/
theorem indifference_loss_threshold_counterexample :
    (1 : ℕ) < 5 ∧
      (∃ p ∈ ([⟨"M", 0⟩, ⟨"X", 10⟩] : List Contender), p.code = "M") ∧
      indifferenceLossPercentage [⟨"M", 0⟩, ⟨"X", 10⟩] "M" 1 1 5 = Except.ok (1 / 16384) ∧
      (0 : ℚ) < 1 / 16384 ∧
      pactsWithVoteLoss [⟨"M", 0⟩, ⟨"X", 10⟩] "M" (max (1 / 16384 - 1 / 10000) 0) =
        Except.ok [⟨"M", 0⟩, ⟨"X", 10⟩] ∧
      allocGet (dhondt_allocation [⟨"M", 0⟩, ⟨"X", 10⟩] 1) "M" < 1 := by
  decide

/-- Witness for claim C2 (amended) on the spec's worked example
(`M = 1800, C = 1000, D = 600`, three seats, baseline one seat): the solver
returns `3121/16384 ≈ 0.1905` and the threshold bracketing holds there. -/
theorem indifference_loss_threshold_witness :
    (∃ sc, pactsWithVoteLoss [⟨"M", 1800⟩, ⟨"C", 1000⟩, ⟨"D", 600⟩] "M"
          ((3121 : ℚ) / 16384) = Except.ok sc ∧
        allocGet (dhondt_allocation sc 3) "M" ≤ 1) ∧
      ∃ sc, pactsWithVoteLoss [⟨"M", 1800⟩, ⟨"C", 1000⟩, ⟨"D", 600⟩] "M"
          (max ((3121 : ℚ) / 16384 - 1 / 10000) 0) = Except.ok sc ∧
        1 ≤ allocGet (dhondt_allocation sc 3) "M" :=
  indifference_loss_threshold [] [⟨"C", 1000⟩, ⟨"D", 600⟩] "M" 1800 3 1 2
    ((3121 : ℚ) / 16384) (by simp) (by decide) (by decide) (by decide) (by decide) (by decide)

theorem mergeStep_fold (codes : List String) :
    ∀ (l : List PactResult)
      (st : ℤ × List CandidateResult × List String × List String × List PactResult),
      l.foldl (mergeStep codes) st =
        (st.1 + ((l.filter fun p => decide (pyUpper p.code ∈ codes)).map fun p => p.votes).sum,
          st.2.1 ++
            (l.filter fun p => decide (pyUpper p.code ∈ codes)).flatMap fun p => p.candidates,
          st.2.2.1 ++ (l.filter fun p => decide (pyUpper p.code ∈ codes)).map fun p => p.name,
          st.2.2.2.1 ++ (l.filter fun p => decide (pyUpper p.code ∈ codes)).map fun p => p.code,
          st.2.2.2.2 ++ l.filter fun p => !decide (pyUpper p.code ∈ codes)) := by
  intro l
  induction l with
  | nil => intro st; simp
  | cons p t ih =>
    intro st
    rw [List.foldl_cons, ih]
    unfold mergeStep
    by_cases hp : pyUpper p.code ∈ codes
    · rw [if_pos hp]
      simp [List.filter_cons, hp, add_assoc, List.append_assoc]
    · rw [if_neg hp]
      simp [List.filter_cons, hp, List.append_assoc]

/-- Claim C6: `_merge_pacts` conserves the vote total whenever at least one
requested code matches: non-matching pacts pass through and the synthetic
pact's votes are exactly the sum of the merged pacts' votes. -/
theorem mergePacts_conserves_votes (pacts : List PactResult) (codes : List String)
    (hmatch : ∃ p ∈ pacts, pyUpper p.code ∈ codes) :
    ∃ res lbl mcodes, mergePacts pacts codes = Except.ok (res, lbl, mcodes) ∧
      (res.map fun p => p.votes).sum = (pacts.map fun p => p.votes).sum ∧
      ∃ merged, res = (pacts.filter fun p => ¬ pyUpper p.code ∈ codes) ++ [merged] ∧
        merged.votes =
          ((pacts.filter fun p => pyUpper p.code ∈ codes).map fun p => p.votes).sum := by
  unfold mergePacts
  rw [mergeStep_fold]
  dsimp only
  have hfil : pacts.filter (fun p => decide (pyUpper p.code ∈ codes)) ≠ [] := by
    rcases hmatch with ⟨p, hp, hmem⟩
    intro hnil
    have : p ∈ pacts.filter fun p => decide (pyUpper p.code ∈ codes) :=
      List.mem_filter.mpr ⟨hp, by simpa using hmem⟩
    rw [hnil] at this
    cases this
  have hcodes : ¬ (([] : List String) ++ (pacts.filter fun p =>
      decide (pyUpper p.code ∈ codes)).map fun p => p.code) = [] := by
    simp only [List.nil_append, List.map_eq_nil_iff]
    exact hfil
  rw [if_neg hcodes]
  refine ⟨_, _, _, rfl, ?_, ?_⟩
  · simp only [List.nil_append, List.map_append, List.sum_append, List.map_cons,
      List.sum_cons, List.map_nil, List.sum_nil]
    have hperm : ((pacts.filter fun p => decide (pyUpper p.code ∈ codes)) ++
        pacts.filter fun p => !decide (pyUpper p.code ∈ codes)).Perm pacts :=
      List.filter_append_perm _ pacts
    have hsum := (hperm.map fun p => p.votes).sum_eq
    rw [List.map_append, List.sum_append] at hsum
    linarith [hsum]
  · have hfeq : (pacts.filter fun p => decide (¬ pyUpper p.code ∈ codes)) =
        pacts.filter fun p => !decide (pyUpper p.code ∈ codes) :=
      List.filter_congr fun p _ => by simp [decide_not]
    simp only [List.nil_append]
    rw [hfeq]
    exact ⟨_, rfl, zero_add _⟩

/-- Witness for claim C6 at a concrete input (a lower-case pact code matches
the upper-cased requested codes). -/
theorem mergePacts_conserves_votes_witness :
    ∃ res lbl mcodes,
      mergePacts [⟨"c", "Uno", "c", 100, none, none, none, []⟩,
          ⟨"J", "Dos", "J", 40, none, none, none, []⟩] ["C", "J"] =
        Except.ok (res, lbl, mcodes) ∧
      (res.map fun p => p.votes).sum =
        (([⟨"c", "Uno", "c", 100, none, none, none, []⟩,
            ⟨"J", "Dos", "J", 40, none, none, none, []⟩] : List PactResult).map
          fun p => p.votes).sum ∧
      ∃ merged,
        res = (([⟨"c", "Uno", "c", 100, none, none, none, []⟩,
              ⟨"J", "Dos", "J", 40, none, none, none, []⟩] : List PactResult).filter
            fun p => ¬ pyUpper p.code ∈ ["C", "J"]) ++ [merged] ∧
          merged.votes =
            ((([⟨"c", "Uno", "c", 100, none, none, none, []⟩,
                ⟨"J", "Dos", "J", 40, none, none, none, []⟩] : List PactResult).filter
              fun p => pyUpper p.code ∈ ["C", "J"]).map fun p => p.votes).sum :=
  mergePacts_conserves_votes _ _ ⟨⟨"c", "Uno", "c", 100, none, none, none, []⟩,
    by simp, by decide⟩

/-- Claim C7: `_merge_pacts` raises exactly when none of the requested codes
matches any pact code (case-insensitively), and the per-district driver skips
an erroring district and continues with the remaining ones. -/
theorem mergePacts_error_iff_no_match :
    (∀ (pacts : List PactResult) (codes : List String),
        (∃ e, mergePacts pacts codes = Except.error e) ↔
          ∀ p ∈ pacts, ¬ pyUpper p.code ∈ codes) ∧
      ∀ (codes : List String) (circs : List CircunscripcionResult),
        processedScenarios codes circs = circs.filterMap fun c =>
          match mergePacts c.pacts codes with
          | Except.error _ => none
          | Except.ok r => some (c.circunscripcion_id, r) := by
  constructor
  · intro pacts codes
    unfold mergePacts
    rw [mergeStep_fold]
    dsimp only
    by_cases hnil : (([] : List String) ++ (pacts.filter fun p =>
        decide (pyUpper p.code ∈ codes)).map fun p => p.code) = []
    · rw [if_pos hnil]
      simp only [List.nil_append] at hnil
      have hfil : pacts.filter (fun p => decide (pyUpper p.code ∈ codes)) = [] :=
        List.map_eq_nil_iff.mp hnil
      constructor
      · intro _ p hp hmem
        have : p ∈ pacts.filter fun p => decide (pyUpper p.code ∈ codes) :=
          List.mem_filter.mpr ⟨hp, by simpa using hmem⟩
        rw [hfil] at this
        cases this
      · intro _
        exact ⟨_, rfl⟩
    · rw [if_neg hnil]
      constructor
      · rintro ⟨e, he⟩
        cases he
      · intro hall
        exfalso
        refine hnil ?_
        simp only [List.nil_append]
        rw [List.filter_eq_nil_iff.mpr fun p hp => by simpa using hall p hp]
        rfl
  · intro codes circs
    induction circs with
    | nil => simp [processedScenarios]
    | cons c rest ih =>
      cases hm : mergePacts c.pacts codes with
      | error e => simp [processedScenarios, hm, ih]
      | ok r => simp [processedScenarios, hm, ih]

/-- Witness for claim C7 (the iff applied at a district with no matching
code). -/
theorem mergePacts_error_iff_no_match_witness :
    ∃ e, mergePacts [⟨"A", "Alpha", "A", 10, none, none, none, []⟩] ["C", "J"] =
      Except.error e :=
  (mergePacts_error_iff_no_match.1 _ _).mpr (by decide)

theorem dropWhile_head_false (p : Char → Bool) (l : List Char)
    (h : ∀ z, l.head? = some z → p z = false) : l.dropWhile p = l := by
  cases l with
  | nil => rfl
  | cons a t => simp [List.dropWhile_cons, h a rfl]

theorem dropWhile_append_spaces (p : Char → Bool) (l₁ l₂ : List Char)
    (h : ∀ c ∈ l₁, p c = true) : (l₁ ++ l₂).dropWhile p = l₂.dropWhile p := by
  induction l₁ with
  | nil => rfl
  | cons a t ih =>
    simp only [List.cons_append, List.dropWhile_cons, h a (by simp)]
    exact ih fun c hc => h c (by simp [hc])

theorem getLast_append_right {α : Type} (l₁ l₂ : List α) (h : l₂ ≠ []) :
    (l₁ ++ l₂).getLast? = l₂.getLast? := by
  rw [← List.head?_reverse, ← List.head?_reverse, List.reverse_append]
  cases hr : l₂.reverse with
  | nil => exact absurd (List.reverse_eq_nil_iff.mp hr) h
  | cons a t => rfl

theorem pyStrip_eq_self (l : List Char)
    (hh : ∀ z, l.head? = some z → isPySpace z = false)
    (hl : ∀ z, l.getLast? = some z → isPySpace z = false) :
    pyStrip l = l := by
  unfold pyStrip
  rw [dropWhile_head_false _ l hh]
  rw [dropWhile_head_false _ l.reverse
    (fun z hz => hl z (by rwa [List.head?_reverse] at hz))]
  exact List.reverse_reverse l

theorem isPySpace_false_of_toLower (c : Char)
    (h : c.toLower = 'i' ∨ c.toLower = 'n' ∨ c.toLower = 'd') :
    isPySpace c = false := by
  by_contra hsp
  rw [Bool.not_eq_false] at hsp
  unfold isPySpace at hsp
  rcases of_decide_eq_true hsp with rfl | rfl | rfl | rfl | rfl | rfl <;>
    revert h <;> decide

theorem subpactCode_of_party_IND (cand : CandidateResult)
    (h : cand.party = some "IND") : candidateSubpactCode cand = "IND" := by
  unfold candidateSubpactCode
  rw [h]
  dsimp only
  rw [if_pos, if_pos, if_pos] <;> decide

/-- Claim C8 (amended): independent-candidate normalization. A party label of
the form `IND - P` (case-insensitive `IND`, optional whitespace around the
dash, `P` a non-empty stripped newline-free party name) yields sub-group code
exactly `P`; a plain `IND` label yields sub-group code `IND`; and every
plain-`IND` candidate of a list lands in the one shared `IND` sub-group of
`_group_candidates_by_subpact` — not in a singleton sub-group of its own,
contrary to the claim's second half. -/
theorem candidate_subpact_ind_normalization
    (cand : CandidateResult) (i n d : Char) (ws₁ ws₂ P : List Char)
    (hi : i.toLower = 'i') (hn : n.toLower = 'n') (hd : d.toLower = 'd')
    (hws₁ : ∀ c ∈ ws₁, isPySpace c = true) (hws₂ : ∀ c ∈ ws₂, isPySpace c = true)
    (hparty : cand.party = some ⟨i :: n :: d :: (ws₁ ++ '-' :: (ws₂ ++ P))⟩)
    (hP : P ≠ []) (hnl : '\n' ∉ P)
    (hhd : ∀ z, P.head? = some z → isPySpace z = false)
    (hlast : ∀ z, P.getLast? = some z → isPySpace z = false) :
    candidateSubpactCode cand = ⟨P⟩ ∧
      (∀ cand₂ : CandidateResult, cand₂.party = some "IND" →
        candidateSubpactCode cand₂ = "IND") ∧
      ∀ (cands : List CandidateResult) (c : CandidateResult), c ∈ cands →
        c.party = some "IND" →
        ("IND", cands.filter fun x => candidateSubpactCode x = "IND") ∈
            groupCandidatesBySubpact cands ∧
          c ∈ cands.filter fun x => candidateSubpactCode x = "IND" := by
  refine ⟨?_, fun cand₂ h2 => subpactCode_of_party_IND cand₂ h2, ?_⟩
  · have hheadAll : ∀ z,
        (i :: n :: d :: (ws₁ ++ '-' :: (ws₂ ++ P))).head? = some z →
          isPySpace z = false := by
      intro z hz
      cases hz
      exact isPySpace_false_of_toLower i (Or.inl hi)
    have hlastAll : ∀ z,
        (i :: n :: d :: (ws₁ ++ '-' :: (ws₂ ++ P))).getLast? = some z →
          isPySpace z = false := by
      intro z hz
      have he : i :: n :: d :: (ws₁ ++ '-' :: (ws₂ ++ P)) =
          (i :: n :: d :: ws₁ ++ '-' :: ws₂) ++ P := by simp
      rw [he, getLast_append_right _ _ hP] at hz
      exact hlast z hz
    have hstrip : pyStrip (i :: n :: d :: (ws₁ ++ '-' :: (ws₂ ++ P))) =
        i :: n :: d :: (ws₁ ++ '-' :: (ws₂ ++ P)) :=
      pyStrip_eq_self _ hheadAll hlastAll
    have hmatchP : indMatchStripped (i :: n :: d :: (ws₁ ++ '-' :: (ws₂ ++ P))) =
        some P := by
      unfold indMatchStripped
      dsimp only
      rw [if_pos ⟨hi, hn, hd⟩]
      have h1 : (ws₁ ++ '-' :: (ws₂ ++ P)).dropWhile isPySpace =
          '-' :: (ws₂ ++ P) := by
        rw [dropWhile_append_spaces _ ws₁ _ hws₁]
        exact dropWhile_head_false _ _ (fun z hz => by cases hz; decide)
      rw [h1]
      have h2 : ¬ (ws₂ ++ P).getLast? = some '\n' := by
        rw [getLast_append_right _ _ hP]
        intro hc
        exact absurd (hlast '\n' hc) (by decide)
      have h3 : (ws₂ ++ P).dropWhile isPySpace = P := by
        rw [dropWhile_append_spaces _ ws₂ _ hws₂]
        exact dropWhile_head_false _ _ hhd
      split
      · rename_i t heq
        obtain rfl : ws₂ ++ P = t := by injection heq
        rw [if_neg h2, h3, if_pos ⟨hP, hnl⟩, pyStrip_eq_self _ hhd hlast]
      · rename_i hcon
        exact absurd rfl (hcon (ws₂ ++ P))
    have hne : (⟨i :: n :: d :: (ws₁ ++ '-' :: (ws₂ ++ P))⟩ : String) ≠ "" :=
      fun hcon => List.cons_ne_nil _ _ (congrArg String.data hcon)
    have hPne : (⟨P⟩ : String) ≠ "" :=
      fun hcon => hP (congrArg String.data hcon)
    have hps : pyStripStr ⟨i :: n :: d :: (ws₁ ++ '-' :: (ws₂ ++ P))⟩ =
        ⟨i :: n :: d :: (ws₁ ++ '-' :: (ws₂ ++ P))⟩ := by
      unfold pyStripStr
      exact congrArg String.mk hstrip
    have hnorm : normalizeIndependentPartyLabel
        ⟨i :: n :: d :: (ws₁ ++ '-' :: (ws₂ ++ P))⟩ = ⟨P⟩ := by
      unfold normalizeIndependentPartyLabel
      rw [if_neg (by exact fun hcon => hne hcon)]
      dsimp only
      rw [hmatchP]
      dsimp only
      rw [if_pos hPne]
    unfold candidateSubpactCode
    rw [hparty]
    dsimp only
    rw [hps, hnorm, if_pos hne, if_pos hne, if_pos hPne]
  · intro cands c hc hp2
    have hcode := subpactCode_of_party_IND c hp2
    constructor
    · have hmem : "IND" ∈ firstDedup (cands.map candidateSubpactCode) :=
        (mem_firstDedup _ _).mpr (List.mem_map.mpr ⟨c, hc, hcode⟩)
      unfold groupCandidatesBySubpact
      exact List.mem_map.mpr ⟨"IND", hmem, rfl⟩
    · exact List.mem_filter.mpr ⟨hc, by simp [hcode]⟩


/-- Counterexample to claim C8 as stated: two distinct candidates both
labeled plain `IND` do not form their own singleton sub-groups; they are
pooled into a single shared `IND` sub-group. -/
theorem candidate_subpact_ind_normalization_counterexample :
    groupCandidatesBySubpact
        [⟨1, "Ana", some "IND", 10, none, false, some "A"⟩,
         ⟨2, "Beto", some "IND", 5, none, false, some "A"⟩] =
      [("IND",
        [⟨1, "Ana", some "IND", 10, none, false, some "A"⟩,
         ⟨2, "Beto", some "IND", 5, none, false, some "A"⟩])] := by
  decide

/-- Witness for claim C8 at concrete inputs: a candidate labeled
`IND - PPD` is grouped under `PPD`, and a candidate labeled `IND` under
`IND`. -/
theorem candidate_subpact_ind_normalization_witness :
    candidateSubpactCode ⟨1, "Ana", some "IND - PPD", 10, none, false, some "A"⟩ = "PPD" ∧
      candidateSubpactCode ⟨2, "Beto", some "IND", 5, none, false, some "A"⟩ = "IND" ∧
      ("IND", ([⟨2, "Beto", some "IND", 5, none, false, some "A"⟩] :
            List CandidateResult).filter
          fun x => candidateSubpactCode x = "IND") ∈
        groupCandidatesBySubpact
          [⟨2, "Beto", some "IND", 5, none, false, some "A"⟩] := by
  have h := candidate_subpact_ind_normalization
    ⟨1, "Ana", some "IND - PPD", 10, none, false, some "A"⟩ 'I' 'N' 'D' [' '] [' ']
    (['P', 'P', 'D']) (by decide) (by decide) (by decide) (by decide) (by decide)
    rfl (by decide) (by decide)
    (fun z hz => by cases hz; decide) (fun z hz => by cases hz; decide)
  exact ⟨h.1, h.2.1 _ rfl,
    (h.2.2 [⟨2, "Beto", some "IND", 5, none, false, some "A"⟩]
      ⟨2, "Beto", some "IND", 5, none, false, some "A"⟩ (by decide) rfl).1⟩

end Main

end AnalisisElectoral
